import Mathlib

/-!
Verification development for the in-process response cache of
elchika-inc/cran-package-readme-mcp-server (src/services/cache.ts,
class MemoryCache).

Modelling conventions:
* JavaScript values handed to the cache are modelled as finite object
  graphs (`JGraph`): a list of nodes indexed by position plus a root
  index.  This makes self-referential (circular) values representable,
  which an ordinary inductive value type cannot do.
* `Date.now()` is modelled by passing the current time (`now : Int`)
  into each operation.  A single synchronous call uses one time value
  throughout (the spec treats each operation as atomic); in particular
  the eviction scan inside `set` sees the same `Date.now()` as the
  entry timestamp when the clock does not tick during the call.
* JavaScript numbers are modelled as `Int` (the cache only ever adds,
  subtracts and compares sizes and timestamps; `NaN` is not modelled).
* The unbounded `while` loop in `set` and the recursive walks are given
  an explicit fuel parameter; returning `none` means the fuel was
  exhausted, i.e. the loop/recursion did not finish within that many
  iterations.  Divergence of the real loop is expressed as `none` for
  every fuel.
* `JSON.stringify` is modelled for the value constructors that occur in
  this development: strings are emitted without escape processing
  (accurate for strings that contain no characters needing escapes),
  and a reference cycle reached during serialization yields `none`,
  modelling the `TypeError` the real function throws (the surrounding
  `try`/`catch` in `estimateEntrySize` turns that into the recursive
  fallback estimate).
-/

/-- A node of a JavaScript value graph.  Containers refer to other
nodes by index, so shared substructure and cycles are representable. -/
inductive JNode where
  | jnull : JNode
  | jbool : Bool → JNode
  | jnum : Int → JNode
  | jstr : String → JNode
  | jarr : List Nat → JNode
  | jobj : List (String × Nat) → JNode
deriving DecidableEq, Repr

/-- A JavaScript value: a heap of nodes together with a root index. -/
structure JGraph where
  nodes : List JNode
  root : Nat
deriving DecidableEq, Repr

/-- Sequencing of a fallible function over a list (the effect of an
exception thrown inside `reduce`/`JSON.stringify`: any failing element
aborts the whole traversal). -/
def optMapList {α β : Type} (f : α → Option β) : List α → Option (List β)
  | [] => some []
  | a :: l =>
    match f a, optMapList f l with
    | some b, some bs => some (b :: bs)
    | _, _ => none

/-- Model of `JSON.stringify` on a value graph.  `stack` holds the
container nodes on the current recursion path; revisiting one of them
is a circular structure and yields `none` (the thrown `TypeError`).
`fuel` bounds the recursion depth; an acyclic reachable part has paths
of distinct nodes, so depth `g.length` can never be exceeded. -/
def stringifyRec (g : List JNode) : Nat → Nat → List Nat → Option String
  | 0, _, _ => none
  | fuel + 1, id, stack =>
    match g.get? id with
    | none => some "null"
    | some JNode.jnull => some "null"
    | some (JNode.jbool b) => some (if b then "true" else "false")
    | some (JNode.jnum n) => some (toString n)
    | some (JNode.jstr s) => some ("\"" ++ s ++ "\"")
    | some (JNode.jarr ids) =>
      if id ∈ stack then none
      else
        (optMapList (fun c => stringifyRec g fuel c (id :: stack)) ids).map
          (fun parts => "[" ++ String.intercalate "," parts ++ "]")
    | some (JNode.jobj kvs) =>
      if id ∈ stack then none
      else
        (optMapList (fun kv =>
            (stringifyRec g fuel kv.2 (id :: stack)).map
              (fun s => "\"" ++ kv.1 ++ "\":" ++ s)) kvs).map
          (fun parts => "\x7b" ++ String.intercalate "," parts ++ "\x7d")

/-- `MemoryCache.estimateSizeRecursively` (cache.ts lines 195-230): the
fallback size estimator.  `visited` holds the container nodes currently
on the recursion path (`visited.add` before descending, `visited.delete`
after, modelled by passing the extended list only to the recursive
calls).  A node already on the path is charged the constant 20.
Primitives are sized by their textual representation, arrays charge 2
for the brackets plus the elements, objects charge 2 for the braces
plus, per property, key length + 3 + value size.  `fuel` bounds the
recursion depth; `estimateSizeRecursively_isSome` shows `g.length + 1`
always suffices, matching the termination of the real function. -/
def estimateSizeRecursively (g : List JNode) : Nat → Nat → List Nat → Option Nat
  | 0, _, _ => none
  | fuel + 1, id, visited =>
    match g.get? id with
    | none => some 4
    | some JNode.jnull => some 4
    | some (JNode.jbool _) => some 5
    | some (JNode.jnum n) => some (toString n).length
    | some (JNode.jstr s) => some s.length
    | some (JNode.jarr ids) =>
      if id ∈ visited then some 20
      else
        (optMapList (fun c => estimateSizeRecursively g fuel c (id :: visited)) ids).map
          (fun sizes => sizes.foldl (· + ·) 2)
    | some (JNode.jobj kvs) =>
      if id ∈ visited then some 20
      else
        (optMapList (fun kv =>
            (estimateSizeRecursively g fuel kv.2 (id :: visited)).map
              (fun s => kv.1.length + 3 + s)) kvs).map
          (fun sizes => sizes.foldl (· + ·) 2)

/-- A cache entry (types/index.ts `CacheEntry`): the stored data, the
`timestamp` at which it was stored or last read, and its `ttl` in
milliseconds. -/
structure CacheEntry where
  data : JGraph
  timestamp : Int
  ttl : Int
deriving DecidableEq, Repr

/-- `MemoryCache.estimateEntrySize` (cache.ts lines 177-193): two bytes
per key character, plus twice the length of the serialized data (or,
when serialization fails on a circular value, twice the recursive
estimate), plus 24 bytes of metadata.  The fuel `nodes.length + 1` is
an artifact of the embedding; by `estimateSizeRecursively_isSome` the
fallback branch never runs out of it. -/
def estimateEntrySize (key : String) (entry : CacheEntry) : Nat :=
  let keySize := key.length * 2
  let dataSize :=
    match stringifyRec entry.data.nodes (entry.data.nodes.length + 1) entry.data.root [] with
    | some s => s.length * 2
    | none =>
      (estimateSizeRecursively entry.data.nodes (entry.data.nodes.length + 1)
        entry.data.root []).getD 0 * 2
  let metadataSize := 24
  keySize + dataSize + metadataSize

/-- Constructor options (types/index.ts `CacheOptions`): `none` models
an absent (`undefined`) field. -/
structure CacheOptions where
  ttl : Option Int
  maxSize : Option Int
deriving DecidableEq, Repr

/-- JavaScript `x || d` for a possibly-undefined number `x`: both
`undefined` and the falsy number 0 select the default. -/
def orDefault (v : Option Int) (d : Int) : Int :=
  match v with
  | none => d
  | some x => if x = 0 then d else x

/-- The MemoryCache state.  The JavaScript `Map` is modelled as an
association list in insertion order (a `Map` iterates in insertion
order, and setting an existing key keeps its position).  The interval
handle of the periodic sweep is reduced to a flag that `destroy`
clears. -/
structure MemoryCache where
  cache : List (String × CacheEntry)
  defaultTtl : Int
  maxSize : Int
  currentMemoryUsage : Int
  hitCount : Nat
  missCount : Nat
  cleanupActive : Bool
deriving DecidableEq, Repr

/-- `Map.get`: the value of the (unique) entry for `k`, if any. -/
def mapGet (k : String) : List (String × CacheEntry) → Option CacheEntry
  | [] => none
  | kv :: l => if kv.1 = k then some kv.2 else mapGet k l

/-- `Map.set`: replace in place if the key exists, otherwise append. -/
def mapSet (k : String) (e : CacheEntry) : List (String × CacheEntry) → List (String × CacheEntry)
  | [] => [(k, e)]
  | kv :: l => if kv.1 = k then (k, e) :: l else kv :: mapSet k e l

/-- `Map.delete`: remove the entry for `k`, if present. -/
def mapDelete (k : String) : List (String × CacheEntry) → List (String × CacheEntry)
  | [] => []
  | kv :: l => if kv.1 = k then l else kv :: mapDelete k l

/-- The `MemoryCache` constructor (cache.ts lines 13-21): both options
fall back to their defaults via `||` (one hour, 100 MB), the store
starts empty, and the periodic sweep is armed. -/
def mkCache (options : CacheOptions) : MemoryCache :=
  { cache := []
    defaultTtl := orDefault options.ttl (3600 * 1000)
    maxSize := orDefault options.maxSize 104857600
    currentMemoryUsage := 0
    hitCount := 0
    missCount := 0
    cleanupActive := true }

/-- Sum of the estimated sizes of all entries of an association list
(what `currentMemoryUsage` is supposed to track). -/
def sumSizes (l : List (String × CacheEntry)) : Int :=
  (l.map (fun kv => (estimateEntrySize kv.1 kv.2 : Int))).sum

/-- Sum of the estimated sizes of the entries whose key differs from
`k` (the contribution of everything except `k`). -/
def sumSizesExcept (k : String) (l : List (String × CacheEntry)) : Int :=
  sumSizes (l.filter (fun kv => kv.1 ≠ k))

/-- The keys of the association list are pairwise distinct (the `Map`
invariant). -/
def NodupKeys (l : List (String × CacheEntry)) : Prop :=
  (l.map Prod.fst).Nodup

/-- One step of the scan in `evictLeastRecentlyUsed` (cache.ts lines
156-161): keep the entry whose timestamp is strictly below the running
minimum. -/
def scanStep (acc : Option String × Int) (kv : String × CacheEntry) : Option String × Int :=
  if kv.2.timestamp < acc.2 then (some kv.1, kv.2.timestamp) else acc

/-- The scan of `evictLeastRecentlyUsed` (cache.ts lines 153-161):
fold over the entries, starting from `oldestKey = null`,
`oldestTimestamp = Date.now()`. -/
def scanOldest (now : Int) (l : List (String × CacheEntry)) : Option String × Int :=
  l.foldl scanStep (none, now)

/-- The key `evictLeastRecentlyUsed` chooses, if any. -/
def evictVictim (now : Int) (l : List (String × CacheEntry)) : Option String :=
  (scanOldest now l).1

/-- The body of the `if (oldestKey)` block of
`MemoryCache.evictLeastRecentlyUsed` (cache.ts lines 163-169): look the
victim up (the source uses a non-null assertion there), delete it and
subtract its estimated size. -/
def evictEntry (k : String) (c : MemoryCache) : MemoryCache :=
  match mapGet k c.cache with
  | none => c
  | some e =>
    { c with
      cache := mapDelete k c.cache
      currentMemoryUsage := c.currentMemoryUsage - (estimateEntrySize k e : Int) }

/-- `MemoryCache.evictLeastRecentlyUsed` (cache.ts lines 152-170):
delete the scanned key, if one was found, and subtract its estimated
size. -/
def evictLeastRecentlyUsed (now : Int) (c : MemoryCache) : MemoryCache :=
  match evictVictim now c.cache with
  | none => c
  | some k => evictEntry k c

/-- The `while` loop of `MemoryCache.set` (cache.ts lines 43-45) with
explicit fuel: while the new entry would overflow the budget and the
map is non-empty, run one eviction.  `none` means the loop had not
finished after `fuel` iterations. -/
def evictLoop (now entrySize : Int) : Nat → MemoryCache → Option MemoryCache
  | 0, c =>
    if c.currentMemoryUsage + entrySize > c.maxSize ∧ 0 < c.cache.length then none
    else some c
  | fuel + 1, c =>
    if c.currentMemoryUsage + entrySize > c.maxSize ∧ 0 < c.cache.length then
      evictLoop now entrySize fuel (evictLeastRecentlyUsed now c)
    else some c

/-- `MemoryCache.set` (cache.ts lines 23-50): build the new entry with
`ttl || defaultTtl` and the current timestamp, estimate its size, if
the key already exists subtract the old entry's size (the old entry
itself stays in the map), run the eviction loop, then insert and add
the new size. -/
def MemoryCache.set (c : MemoryCache) (key : String) (value : JGraph)
    (ttl : Option Int) (now : Int) (fuel : Nat) : Option MemoryCache :=
  let actualTtl := orDefault ttl c.defaultTtl
  let entry : CacheEntry := { data := value, timestamp := now, ttl := actualTtl }
  let entrySize : Int := (estimateEntrySize key entry : Int)
  let c1 :=
    match mapGet key c.cache with
    | some oldEntry =>
      { c with currentMemoryUsage := c.currentMemoryUsage - (estimateEntrySize key oldEntry : Int) }
    | none => c
  match evictLoop now entrySize fuel c1 with
  | none => none
  | some c2 =>
    some { c2 with
            cache := mapSet key entry c2.cache
            currentMemoryUsage := c2.currentMemoryUsage + entrySize }

/-- `MemoryCache.get` (cache.ts lines 52-76): absent counts a miss;
an entry with `now - timestamp > ttl` is expired, so it is deleted,
its size subtracted and a miss counted; otherwise the timestamp is
refreshed in place (recency bump), a hit is counted and the data
returned. -/
def MemoryCache.get (c : MemoryCache) (key : String) (now : Int) :
    Option JGraph × MemoryCache :=
  match mapGet key c.cache with
  | none => (none, { c with missCount := c.missCount + 1 })
  | some entry =>
    if now - entry.timestamp > entry.ttl then
      (none,
        { c with
          cache := mapDelete key c.cache
          currentMemoryUsage := c.currentMemoryUsage - (estimateEntrySize key entry : Int)
          missCount := c.missCount + 1 })
    else
      (some entry.data,
        { c with
          cache := mapSet key { entry with timestamp := now } c.cache
          hitCount := c.hitCount + 1 })

/-- `MemoryCache.has` (cache.ts lines 100-115): same expiry
bookkeeping as `get` but no counters and no recency bump. -/
def MemoryCache.has (c : MemoryCache) (key : String) (now : Int) :
    Bool × MemoryCache :=
  match mapGet key c.cache with
  | none => (false, c)
  | some entry =>
    if now - entry.timestamp > entry.ttl then
      (false,
        { c with
          cache := mapDelete key c.cache
          currentMemoryUsage := c.currentMemoryUsage - (estimateEntrySize key entry : Int) })
    else (true, c)

/-- `MemoryCache.delete` (cache.ts lines 78-90): subtract the entry's
size if present, remove it, report whether something was removed. -/
def MemoryCache.delete (c : MemoryCache) (key : String) : Bool × MemoryCache :=
  match mapGet key c.cache with
  | none => (false, c)
  | some entry =>
    (true,
      { c with
        cache := mapDelete key c.cache
        currentMemoryUsage := c.currentMemoryUsage - (estimateEntrySize key entry : Int) })

/-- `MemoryCache.clear` (cache.ts lines 92-98). -/
def MemoryCache.clear (c : MemoryCache) : MemoryCache :=
  { c with cache := [], currentMemoryUsage := 0, hitCount := 0, missCount := 0 }

/-- `MemoryCache.cleanup` (cache.ts lines 132-150): the periodic sweep
deletes every expired entry and subtracts its size. -/
def MemoryCache.cleanup (c : MemoryCache) (now : Int) : MemoryCache :=
  let isExpired : String × CacheEntry → Bool :=
    fun kv => decide (now - kv.2.timestamp > kv.2.ttl)
  { c with
    cache := c.cache.filter (fun kv => ! isExpired kv)
    currentMemoryUsage := c.currentMemoryUsage - sumSizes (c.cache.filter isExpired) }

/-- `MemoryCache.size` (cache.ts lines 117-119). -/
def MemoryCache.size (c : MemoryCache) : Nat := c.cache.length

/-- `MemoryCache.destroy` (cache.ts lines 232-236): cancel the sweep
and clear the map.  Note the source does not reset
`currentMemoryUsage` here (unlike `clear`). -/
def MemoryCache.destroy (c : MemoryCache) : MemoryCache :=
  { c with cache := [], cleanupActive := false }

/-- States reachable from a freshly constructed cache by `set` calls
alone (each call terminating, i.e. returning `some`). -/
inductive SetReach (options : CacheOptions) : MemoryCache → Prop where
  | init : SetReach options (mkCache options)
  | step {c c' : MemoryCache} {key : String} {value : JGraph} {ttl : Option Int}
      {now : Int} {fuel : Nat} :
      SetReach options c → MemoryCache.set c key value ttl now fuel = some c' →
      SetReach options c'

/-! ### Basic lemmas about the fallible list traversal -/

theorem optMapList_isSome {α β : Type} (f : α → Option β) :
    ∀ l : List α, (∀ a ∈ l, (f a).isSome) → (optMapList f l).isSome := by
  intro l
  induction l with
  | nil => intro _; simp [optMapList]
  | cons a l ih =>
    intro h
    have ha := h a (List.mem_cons_self a l)
    have hl := ih (fun x hx => h x (List.mem_cons_of_mem a hx))
    obtain ⟨b, hb⟩ := Option.isSome_iff_exists.mp ha
    obtain ⟨bs, hbs⟩ := Option.isSome_iff_exists.mp hl
    simp [optMapList, hb, hbs]

theorem length_le_of_nodup_bounded (l : List Nat) (n : Nat)
    (hn : l.Nodup) (hb : ∀ i ∈ l, i < n) : l.length ≤ n := by
  classical
  have hsub : l.toFinset ⊆ Finset.range n := by
    intro x hx
    rw [List.mem_toFinset] at hx
    exact Finset.mem_range.mpr (hb x hx)
  have hcard := Finset.card_le_card hsub
  rwa [List.toFinset_card_of_nodup hn, Finset.card_range] at hcard

/-! ### Termination of the fallback size estimator -/

/-- The visited-set recursion of `estimateSizeRecursively` terminates
on every finite value graph, cyclic or not: a recursion depth of
`g.length + 1` (more generally, any fuel exceeding the number of nodes
not yet on the path) always produces a result. -/
theorem estimateSizeRecursively_isSome (g : List JNode) :
    ∀ (fuel : Nat) (visited : List Nat) (id : Nat), visited.Nodup →
      (∀ i ∈ visited, i < g.length) → g.length - visited.length < fuel →
      (estimateSizeRecursively g fuel id visited).isSome := by
  intro fuel
  induction fuel with
  | zero =>
    intro visited id _ _ hf
    exact absurd hf (Nat.not_lt_zero _)
  | succ fuel ih =>
    intro visited id hnd hb hf
    rw [estimateSizeRecursively]
    cases hg : g.get? id with
    | none => simp
    | some node =>
      have hidlt : id < g.length := by
        by_contra hge
        rw [List.get?_eq_none.mpr (Nat.le_of_not_lt hge)] at hg
        exact Option.noConfusion hg
      have hstep : ∀ j, (estimateSizeRecursively g fuel j (id :: visited)).isSome → True := fun _ _ => trivial
      cases node with
      | jnull => simp
      | jbool b => simp
      | jnum n => simp
      | jstr s => simp
      | jarr ids =>
        by_cases hid : id ∈ visited
        · simp [hid]
        · have hrec : ∀ c ∈ ids, (estimateSizeRecursively g fuel c (id :: visited)).isSome := by
            intro c _
            apply ih (id :: visited) c
            · exact List.nodup_cons.mpr ⟨hid, hnd⟩
            · intro i hi
              rcases List.mem_cons.mp hi with h | h
              · exact h ▸ hidlt
              · exact hb i h
            · have hlen : (id :: visited).length ≤ g.length := by
                apply length_le_of_nodup_bounded _ _ (List.nodup_cons.mpr ⟨hid, hnd⟩)
                intro i hi
                rcases List.mem_cons.mp hi with h | h
                · exact h ▸ hidlt
                · exact hb i h
              simp only [List.length_cons] at hlen ⊢
              omega
          have hms := optMapList_isSome _ ids hrec
          obtain ⟨bs, hbs⟩ := Option.isSome_iff_exists.mp hms
          simp [hid, hbs]
      | jobj kvs =>
        by_cases hid : id ∈ visited
        · simp [hid]
        · have hrec : ∀ kv ∈ kvs,
              ((estimateSizeRecursively g fuel (Prod.snd kv) (id :: visited)).map
                (fun s => (Prod.fst kv).length + 3 + s)).isSome := by
            intro kv _
            have : (estimateSizeRecursively g fuel kv.2 (id :: visited)).isSome := by
              apply ih (id :: visited) kv.2
              · exact List.nodup_cons.mpr ⟨hid, hnd⟩
              · intro i hi
                rcases List.mem_cons.mp hi with h | h
                · exact h ▸ hidlt
                · exact hb i h
              · have hlen : (id :: visited).length ≤ g.length := by
                  apply length_le_of_nodup_bounded _ _ (List.nodup_cons.mpr ⟨hid, hnd⟩)
                  intro i hi
                  rcases List.mem_cons.mp hi with h | h
                  · exact h ▸ hidlt
                  · exact hb i h
                simp only [List.length_cons] at hlen ⊢
                omega
            obtain ⟨b, hbb⟩ := Option.isSome_iff_exists.mp this
            simp [hbb]
          have hms := optMapList_isSome _ kvs hrec
          obtain ⟨bs, hbs⟩ := Option.isSome_iff_exists.mp hms
          simp [hid, hbs]

/-! ### Association-list (JavaScript Map) lemmas -/

theorem sumSizes_nil : sumSizes [] = 0 := rfl

theorem sumSizes_cons (kv : String × CacheEntry) (l : List (String × CacheEntry)) :
    sumSizes (kv :: l) = (estimateEntrySize kv.1 kv.2 : Int) + sumSizes l := by
  simp [sumSizes]

theorem sumSizes_nonneg (l : List (String × CacheEntry)) : 0 ≤ sumSizes l := by
  induction l with
  | nil => simp [sumSizes_nil]
  | cons kv l ih =>
    rw [sumSizes_cons]
    have : (0 : Int) ≤ (estimateEntrySize kv.1 kv.2 : Int) := Int.ofNat_nonneg _
    linarith

theorem sumSizesExcept_nil (k : String) : sumSizesExcept k [] = 0 := rfl

theorem sumSizesExcept_cons (k : String) (kv : String × CacheEntry)
    (l : List (String × CacheEntry)) :
    sumSizesExcept k (kv :: l) =
      if kv.1 = k then sumSizesExcept k l
      else (estimateEntrySize kv.1 kv.2 : Int) + sumSizesExcept k l := by
  by_cases h : kv.1 = k
  · simp [sumSizesExcept, List.filter, h]
  · simp [sumSizesExcept, List.filter, h, sumSizes_cons]

theorem sumSizesExcept_nonneg (k : String) (l : List (String × CacheEntry)) :
    0 ≤ sumSizesExcept k l := sumSizes_nonneg _

theorem mapGet_eq_none_iff (k : String) (l : List (String × CacheEntry)) :
    mapGet k l = none ↔ k ∉ l.map Prod.fst := by
  induction l with
  | nil => simp [mapGet]
  | cons kv l ih =>
    rw [mapGet, List.map_cons]
    by_cases h : kv.1 = k
    · rw [if_pos h]
      constructor
      · intro h0
        exact Option.noConfusion h0
      · intro hmem
        exact absurd (h ▸ List.mem_cons_self kv.1 _) hmem
    · rw [if_neg h, ih]
      constructor
      · intro hnot hmem
        rcases List.mem_cons.mp hmem with h1 | h1
        · exact h h1.symm
        · exact hnot h1
      · intro hnot h1
        exact hnot (List.mem_cons_of_mem _ h1)

theorem mem_of_mapGet (k : String) (e : CacheEntry) (l : List (String × CacheEntry))
    (h : mapGet k l = some e) : (k, e) ∈ l := by
  induction l with
  | nil => exact Option.noConfusion h
  | cons kv l ih =>
    by_cases hk : kv.1 = k
    · rw [mapGet, if_pos hk] at h
      have : kv = (k, e) := by
        cases kv
        simp_all
      exact this ▸ List.mem_cons_self kv l
    · rw [mapGet, if_neg hk] at h
      exact List.mem_cons_of_mem kv (ih h)

theorem mapGet_of_mem_nodup (k : String) (e : CacheEntry) (l : List (String × CacheEntry))
    (hn : NodupKeys l) (h : (k, e) ∈ l) : mapGet k l = some e := by
  induction l with
  | nil => exact absurd h (List.not_mem_nil _)
  | cons kv l ih =>
    rcases List.mem_cons.mp h with h1 | h1
    · rw [← h1, mapGet, if_pos rfl]
    · have hn' := hn
      rw [NodupKeys, List.map_cons, List.nodup_cons] at hn'
      have hne : kv.1 ≠ k := by
        intro hk
        exact hn'.1 (hk ▸ (List.mem_map.mpr ⟨(k, e), h1, rfl⟩))
      rw [mapGet, if_neg hne]
      exact ih hn'.2 h1

theorem sumSizesExcept_of_none (k : String) (l : List (String × CacheEntry))
    (h : mapGet k l = none) : sumSizesExcept k l = sumSizes l := by
  induction l with
  | nil => rfl
  | cons kv l ih =>
    rw [mapGet] at h
    by_cases hk : kv.1 = k
    · rw [if_pos hk] at h
      exact Option.noConfusion h
    · rw [if_neg hk] at h
      rw [sumSizesExcept_cons, if_neg hk, sumSizes_cons, ih h]

theorem sumSizes_split (k : String) (e : CacheEntry) (l : List (String × CacheEntry))
    (hn : NodupKeys l) (h : mapGet k l = some e) :
    sumSizes l = sumSizesExcept k l + (estimateEntrySize k e : Int) := by
  induction l with
  | nil => exact Option.noConfusion h
  | cons kv l ih =>
    have hn' := hn
    rw [NodupKeys, List.map_cons, List.nodup_cons] at hn'
    rw [mapGet] at h
    by_cases hk : kv.1 = k
    · rw [if_pos hk] at h
      have he : kv.2 = e := Option.some.inj h
      have hnone : mapGet k l = none := by
        rw [mapGet_eq_none_iff]
        exact hk ▸ hn'.1
      rw [sumSizes_cons, sumSizesExcept_cons, if_pos hk,
        sumSizesExcept_of_none k l hnone, hk, he]
      ring
    · rw [if_neg hk] at h
      rw [sumSizes_cons, sumSizesExcept_cons, if_neg hk, ih hn'.2 h]
      ring

theorem sumSizes_mapSet (k : String) (e : CacheEntry) (l : List (String × CacheEntry))
    (hn : NodupKeys l) :
    sumSizes (mapSet k e l) = sumSizesExcept k l + (estimateEntrySize k e : Int) := by
  induction l with
  | nil => simp [mapSet, sumSizes_cons, sumSizes_nil, sumSizesExcept_nil]
  | cons kv l ih =>
    have hn' := hn
    rw [NodupKeys, List.map_cons, List.nodup_cons] at hn'
    by_cases hk : kv.1 = k
    · have hnone : mapGet k l = none := by
        rw [mapGet_eq_none_iff]
        exact hk ▸ hn'.1
      rw [mapSet, if_pos hk, sumSizes_cons, sumSizesExcept_cons, if_pos hk,
        sumSizesExcept_of_none k l hnone]
      ring
    · rw [mapSet, if_neg hk, sumSizes_cons, sumSizesExcept_cons, if_neg hk, ih hn'.2]
      ring

theorem sumSizesExcept_mapDelete_self (k : String) (l : List (String × CacheEntry)) :
    sumSizesExcept k (mapDelete k l) = sumSizesExcept k l := by
  induction l with
  | nil => rfl
  | cons kv l ih =>
    by_cases hk : kv.1 = k
    · rw [mapDelete, if_pos hk, sumSizesExcept_cons, if_pos hk]
    · rw [mapDelete, if_neg hk, sumSizesExcept_cons, if_neg hk,
        sumSizesExcept_cons, if_neg hk, ih]

theorem sumSizesExcept_mapDelete_ne (k k2 : String) (e : CacheEntry)
    (l : List (String × CacheEntry)) (hne : k2 ≠ k) (h : mapGet k2 l = some e) :
    sumSizesExcept k (mapDelete k2 l) =
      sumSizesExcept k l - (estimateEntrySize k2 e : Int) := by
  induction l with
  | nil => exact Option.noConfusion h
  | cons kv l ih =>
    rw [mapGet] at h
    by_cases hk : kv.1 = k2
    · rw [if_pos hk] at h
      have he : kv.2 = e := Option.some.inj h
      have hkk : ¬ kv.1 = k := by
        rw [hk]
        exact hne
      rw [mapDelete, if_pos hk, sumSizesExcept_cons, if_neg hkk, hk, he]
      ring
    · rw [if_neg hk] at h
      by_cases hkk : kv.1 = k
      · rw [mapDelete, if_neg hk, sumSizesExcept_cons, if_pos hkk,
          sumSizesExcept_cons, if_pos hkk, ih h]
      · rw [mapDelete, if_neg hk, sumSizesExcept_cons, if_neg hkk,
          sumSizesExcept_cons, if_neg hkk, ih h]
        ring

theorem mapGet_mapSet_self (k : String) (e : CacheEntry) (l : List (String × CacheEntry)) :
    mapGet k (mapSet k e l) = some e := by
  induction l with
  | nil => simp [mapSet, mapGet]
  | cons kv l ih =>
    by_cases hk : kv.1 = k
    · rw [mapSet, if_pos hk, mapGet, if_pos rfl]
    · rw [mapSet, if_neg hk, mapGet, if_neg hk]
      exact ih

theorem mem_keys_mapSet (x k : String) (e : CacheEntry) (l : List (String × CacheEntry)) :
    x ∈ (mapSet k e l).map Prod.fst → x ∈ l.map Prod.fst ∨ x = k := by
  induction l with
  | nil => simp [mapSet]
  | cons kv l ih =>
    by_cases hk : kv.1 = k
    · rw [mapSet, if_pos hk]
      intro h
      rcases List.mem_map.mp h with ⟨p, hp, hpx⟩
      rcases List.mem_cons.mp hp with h1 | h1
      · right
        rw [← hpx, h1]
      · left
        rw [List.map_cons]
        exact List.mem_cons_of_mem _ (List.mem_map.mpr ⟨p, h1, hpx⟩)
    · rw [mapSet, if_neg hk]
      intro h
      rcases List.mem_map.mp h with ⟨p, hp, hpx⟩
      rcases List.mem_cons.mp hp with h1 | h1
      · left
        rw [List.map_cons, ← hpx, h1]
        exact List.mem_cons_self _ _
      · rcases ih (List.mem_map.mpr ⟨p, h1, hpx⟩) with h2 | h2
        · left
          rw [List.map_cons]
          exact List.mem_cons_of_mem _ h2
        · right
          exact h2

theorem nodupKeys_mapSet (k : String) (e : CacheEntry) (l : List (String × CacheEntry))
    (hn : NodupKeys l) : NodupKeys (mapSet k e l) := by
  induction l with
  | nil => simp [mapSet, NodupKeys]
  | cons kv l ih =>
    have hn' := hn
    rw [NodupKeys, List.map_cons, List.nodup_cons] at hn'
    by_cases hk : kv.1 = k
    · rw [mapSet, if_pos hk, NodupKeys, List.map_cons, List.nodup_cons]
      exact ⟨hk ▸ hn'.1, hn'.2⟩
    · rw [mapSet, if_neg hk, NodupKeys, List.map_cons, List.nodup_cons]
      refine ⟨?_, ih hn'.2⟩
      intro hmem
      rcases mem_keys_mapSet kv.1 k e l hmem with h1 | h1
      · exact hn'.1 h1
      · exact hk h1

theorem mem_keys_mapDelete (x k : String) (l : List (String × CacheEntry)) :
    x ∈ (mapDelete k l).map Prod.fst → x ∈ l.map Prod.fst := by
  induction l with
  | nil => simp [mapDelete]
  | cons kv l ih =>
    by_cases hk : kv.1 = k
    · rw [mapDelete, if_pos hk, List.map_cons]
      exact fun h => List.mem_cons_of_mem _ h
    · rw [mapDelete, if_neg hk, List.map_cons, List.map_cons]
      intro h
      rcases List.mem_cons.mp h with h1 | h1
      · exact h1 ▸ List.mem_cons_self _ _
      · exact List.mem_cons_of_mem _ (ih h1)

theorem nodupKeys_mapDelete (k : String) (l : List (String × CacheEntry))
    (hn : NodupKeys l) : NodupKeys (mapDelete k l) := by
  induction l with
  | nil => simp [mapDelete, NodupKeys]
  | cons kv l ih =>
    have hn' := hn
    rw [NodupKeys, List.map_cons, List.nodup_cons] at hn'
    by_cases hk : kv.1 = k
    · rw [mapDelete, if_pos hk]
      exact hn'.2
    · rw [mapDelete, if_neg hk, NodupKeys, List.map_cons, List.nodup_cons]
      exact ⟨fun h => hn'.1 (mem_keys_mapDelete kv.1 k l h), ih hn'.2⟩

/-! ### The eviction scan -/

theorem scanFold_spec (l : List (String × CacheEntry)) :
    ∀ acc : Option String × Int,
      (l.foldl scanStep acc).2 ≤ acc.2 ∧
      (∀ p ∈ l, (l.foldl scanStep acc).2 ≤ p.2.timestamp) ∧
      (l.foldl scanStep acc = acc ∨
        ∃ p ∈ l, (l.foldl scanStep acc).1 = some p.1 ∧
          (l.foldl scanStep acc).2 = p.2.timestamp) := by
  induction l with
  | nil =>
    intro acc
    exact ⟨le_refl _, by simp, Or.inl rfl⟩
  | cons kv l ih =>
    intro acc
    rw [List.foldl_cons]
    obtain ⟨ih1, ih2, ih3⟩ := ih (scanStep acc kv)
    have hstep_le : (scanStep acc kv).2 ≤ acc.2 := by
      rw [scanStep]
      split
      · exact le_of_lt (by assumption)
      · exact le_refl _
    have hstep_kv : (scanStep acc kv).2 ≤ kv.2.timestamp := by
      rw [scanStep]
      split
      · exact le_refl _
      · exact le_of_not_lt (by assumption)
    refine ⟨le_trans ih1 hstep_le, ?_, ?_⟩
    · intro p hp
      rcases List.mem_cons.mp hp with h1 | h1
      · rw [h1]
        exact le_trans ih1 hstep_kv
      · exact ih2 p h1
    · rcases ih3 with h | ⟨p, hp, h1, h2⟩
      · rw [h, scanStep]
        split
        · exact Or.inr ⟨kv, List.mem_cons_self _ _, rfl, rfl⟩
        · exact Or.inl rfl
      · exact Or.inr ⟨p, List.mem_cons_of_mem _ hp, h1, h2⟩

/-- When the scan returns a victim, that victim is an entry of the map
whose timestamp is minimal among all entries. -/
theorem evictVictim_min (now : Int) (l : List (String × CacheEntry)) (k : String)
    (h : evictVictim now l = some k) :
    ∃ e, (k, e) ∈ l ∧ ∀ p ∈ l, e.timestamp ≤ p.2.timestamp := by
  obtain ⟨_, h2, h3⟩ := scanFold_spec l (none, now)
  rw [evictVictim, scanOldest] at h
  rcases h3 with heq | ⟨p, hp, h1, hts⟩
  · rw [heq] at h
    exact Option.noConfusion h
  · obtain ⟨p1, p2⟩ := p
    have hpk : p1 = k := by
      have := h1 ▸ h
      exact Option.some.inj this
    subst hpk
    refine ⟨p2, hp, ?_⟩
    intro q hq
    rw [← hts]
    exact h2 q hq

/-! ### The eviction step and loop -/

theorem evictLRU_cases (now : Int) (c : MemoryCache) :
    evictLeastRecentlyUsed now c = c ∨
    ∃ k e, evictVictim now c.cache = some k ∧ mapGet k c.cache = some e ∧
      evictLeastRecentlyUsed now c =
        { c with
          cache := mapDelete k c.cache
          currentMemoryUsage := c.currentMemoryUsage - (estimateEntrySize k e : Int) } := by
  cases hv : evictVictim now c.cache with
  | none =>
    refine Or.inl ?_
    rw [evictLeastRecentlyUsed, hv]
  | some k =>
    cases hg : mapGet k c.cache with
    | none =>
      refine Or.inl ?_
      rw [evictLeastRecentlyUsed, hv]
      show evictEntry k c = c
      rw [evictEntry, hg]
    | some e =>
      refine Or.inr ⟨k, e, rfl, hg, ?_⟩
      rw [evictLeastRecentlyUsed, hv]
      show evictEntry k c = _
      rw [evictEntry, hg]

theorem evictLRU_pres (now : Int) (c : MemoryCache) (k : String) :
    (evictLeastRecentlyUsed now c).maxSize = c.maxSize ∧
    (evictLeastRecentlyUsed now c).defaultTtl = c.defaultTtl ∧
    (NodupKeys c.cache → NodupKeys (evictLeastRecentlyUsed now c).cache) ∧
    (c.currentMemoryUsage ≤ sumSizesExcept k c.cache →
      (evictLeastRecentlyUsed now c).currentMemoryUsage ≤
        sumSizesExcept k (evictLeastRecentlyUsed now c).cache) := by
  rcases evictLRU_cases now c with h | ⟨k2, e, _, hg, h⟩
  · rw [h]
    exact ⟨rfl, rfl, id, id⟩
  · rw [h]
    refine ⟨rfl, rfl, fun hn => nodupKeys_mapDelete _ _ hn, fun hJ => ?_⟩
    by_cases hk : k2 = k
    · subst hk
      rw [sumSizesExcept_mapDelete_self]
      have hnn : (0 : Int) ≤ (estimateEntrySize k2 e : Int) := Int.ofNat_nonneg _
      simp only
      linarith
    · rw [sumSizesExcept_mapDelete_ne k k2 e c.cache hk hg]
      simp only
      linarith

theorem evictLoop_spec (now esz : Int) (k : String) :
    ∀ (fuel : Nat) (c c2 : MemoryCache), evictLoop now esz fuel c = some c2 →
      c2.maxSize = c.maxSize ∧ c2.defaultTtl = c.defaultTtl ∧
      (NodupKeys c.cache → NodupKeys c2.cache) ∧
      (c.currentMemoryUsage ≤ sumSizesExcept k c.cache →
        c2.currentMemoryUsage ≤ sumSizesExcept k c2.cache) ∧
      (c2.currentMemoryUsage + esz ≤ c2.maxSize ∨ c2.cache = []) := by
  intro fuel
  induction fuel with
  | zero =>
    intro c c2 h
    rw [evictLoop] at h
    split at h
    · exact Option.noConfusion h
    · have hc : c = c2 := Option.some.inj h
      subst hc
      refine ⟨rfl, rfl, id, id, ?_⟩
      rename_i hguard
      rcases not_and_or.mp hguard with h1 | h1
      · exact Or.inl (le_of_not_lt h1)
      · exact Or.inr (List.length_eq_zero.mp (Nat.eq_zero_of_not_pos h1))
  | succ fuel ih =>
    intro c c2 h
    rw [evictLoop] at h
    split at h
    · have hrec := ih (evictLeastRecentlyUsed now c) c2 h
      have hpres := evictLRU_pres now c k
      exact ⟨hrec.1.trans hpres.1, hrec.2.1.trans hpres.2.1,
        fun hn => hrec.2.2.1 (hpres.2.2.1 hn),
        fun hJ => hrec.2.2.2.1 (hpres.2.2.2 hJ),
        hrec.2.2.2.2⟩
    · have hc : c = c2 := Option.some.inj h
      subst hc
      refine ⟨rfl, rfl, id, id, ?_⟩
      rename_i hguard
      rcases not_and_or.mp hguard with h1 | h1
      · exact Or.inl (le_of_not_lt h1)
      · exact Or.inr (List.length_eq_zero.mp (Nat.eq_zero_of_not_pos h1))

/-! ### The `set` operation -/

theorem set_eq (c : MemoryCache) (key : String) (value : JGraph) (ttl : Option Int)
    (now : Int) (fuel : Nat) (c' : MemoryCache)
    (h : MemoryCache.set c key value ttl now fuel = some c') :
    ∃ c2,
      evictLoop now ((estimateEntrySize key ⟨value, now, orDefault ttl c.defaultTtl⟩ : Nat) : Int)
          fuel
          (match mapGet key c.cache with
            | some oldEntry =>
              { c with currentMemoryUsage :=
                  c.currentMemoryUsage - (estimateEntrySize key oldEntry : Int) }
            | none => c) = some c2 ∧
      c' = { c2 with
              cache := mapSet key ⟨value, now, orDefault ttl c.defaultTtl⟩ c2.cache
              currentMemoryUsage := c2.currentMemoryUsage +
                ((estimateEntrySize key ⟨value, now, orDefault ttl c.defaultTtl⟩ : Nat) : Int) } := by
  simp only [MemoryCache.set] at h
  split at h
  · exact Option.noConfusion h
  · rename_i c2 hev
    exact ⟨c2, hev, (Option.some.inj h).symm⟩

theorem set_spec (c : MemoryCache) (key : String) (value : JGraph) (ttl : Option Int)
    (now : Int) (fuel : Nat) (c' : MemoryCache)
    (hn : NodupKeys c.cache)
    (hs : MemoryCache.set c key value ttl now fuel = some c') :
    NodupKeys c'.cache ∧
    c'.maxSize = c.maxSize ∧
    c'.defaultTtl = c.defaultTtl ∧
    mapGet key c'.cache = some ⟨value, now, orDefault ttl c.defaultTtl⟩ ∧
    (c.currentMemoryUsage ≤ sumSizes c.cache →
      c'.currentMemoryUsage ≤ sumSizes c'.cache ∧
      c'.currentMemoryUsage ≤
        max c.maxSize ((estimateEntrySize key ⟨value, now, orDefault ttl c.defaultTtl⟩ : Nat) : Int)) := by
  obtain ⟨c2, hev, hc'⟩ := set_eq c key value ttl now fuel c' hs
  cases hg : mapGet key c.cache with
  | none =>
    have hc1 : (match mapGet key c.cache with
        | some oldEntry =>
          { c with currentMemoryUsage :=
              c.currentMemoryUsage - (estimateEntrySize key oldEntry : Int) }
        | none => c) = c := by rw [hg]
    rw [hc1] at hev
    obtain ⟨hmax2, httl2, hnd2, hJ2, hexit⟩ :=
      evictLoop_spec now ((estimateEntrySize key ⟨value, now, orDefault ttl c.defaultTtl⟩ : Nat) : Int)
        key fuel c c2 hev
    have hnd2' := hnd2 hn
    subst hc'
    refine ⟨nodupKeys_mapSet _ _ _ hnd2', hmax2, httl2, mapGet_mapSet_self _ _ _, ?_⟩
    intro hInv
    have hJ1 : c.currentMemoryUsage ≤ sumSizesExcept key c.cache := by
      rw [sumSizesExcept_of_none key c.cache hg]
      exact hInv
    have hJ2' := hJ2 hJ1
    have hsum' := sumSizes_mapSet key (⟨value, now, orDefault ttl c.defaultTtl⟩ : CacheEntry)
      c2.cache hnd2'
    constructor
    · show c2.currentMemoryUsage +
          ((estimateEntrySize key ⟨value, now, orDefault ttl c.defaultTtl⟩ : Nat) : Int) ≤
        sumSizes (mapSet key ⟨value, now, orDefault ttl c.defaultTtl⟩ c2.cache)
      rw [hsum']
      linarith
    · show c2.currentMemoryUsage +
          ((estimateEntrySize key ⟨value, now, orDefault ttl c.defaultTtl⟩ : Nat) : Int) ≤
        max c.maxSize ((estimateEntrySize key ⟨value, now, orDefault ttl c.defaultTtl⟩ : Nat) : Int)
      rcases hexit with hle | hemp
      · rw [hmax2] at hle
        exact le_trans hle (le_max_left _ _)
      · have h0 : sumSizesExcept key c2.cache = 0 := by
          rw [hemp]
          rfl
        rw [h0] at hJ2'
        have := le_max_right c.maxSize
          ((estimateEntrySize key ⟨value, now, orDefault ttl c.defaultTtl⟩ : Nat) : Int)
        linarith
  | some oldEntry =>
    have hc1 : (match mapGet key c.cache with
        | some oldEntry =>
          { c with currentMemoryUsage :=
              c.currentMemoryUsage - (estimateEntrySize key oldEntry : Int) }
        | none => c) =
        { c with currentMemoryUsage :=
            c.currentMemoryUsage - (estimateEntrySize key oldEntry : Int) } := by rw [hg]
    rw [hc1] at hev
    obtain ⟨hmax2, httl2, hnd2, hJ2, hexit⟩ :=
      evictLoop_spec now ((estimateEntrySize key ⟨value, now, orDefault ttl c.defaultTtl⟩ : Nat) : Int)
        key fuel
        { c with currentMemoryUsage :=
            c.currentMemoryUsage - (estimateEntrySize key oldEntry : Int) } c2 hev
    have hnd2' := hnd2 hn
    subst hc'
    refine ⟨nodupKeys_mapSet _ _ _ hnd2', hmax2, httl2, mapGet_mapSet_self _ _ _, ?_⟩
    intro hInv
    have hsplit := sumSizes_split key oldEntry c.cache hn hg
    have hJ1 : c.currentMemoryUsage - (estimateEntrySize key oldEntry : Int) ≤
        sumSizesExcept key c.cache := by linarith
    have hJ2' := hJ2 hJ1
    have hsum' := sumSizes_mapSet key (⟨value, now, orDefault ttl c.defaultTtl⟩ : CacheEntry)
      c2.cache hnd2'
    constructor
    · show c2.currentMemoryUsage +
          ((estimateEntrySize key ⟨value, now, orDefault ttl c.defaultTtl⟩ : Nat) : Int) ≤
        sumSizes (mapSet key ⟨value, now, orDefault ttl c.defaultTtl⟩ c2.cache)
      rw [hsum']
      linarith
    · show c2.currentMemoryUsage +
          ((estimateEntrySize key ⟨value, now, orDefault ttl c.defaultTtl⟩ : Nat) : Int) ≤
        max c.maxSize ((estimateEntrySize key ⟨value, now, orDefault ttl c.defaultTtl⟩ : Nat) : Int)
      rcases hexit with hle | hemp
      · rw [hmax2] at hle
        exact le_trans hle (le_max_left _ _)
      · have h0 : sumSizesExcept key c2.cache = 0 := by
          rw [hemp]
          rfl
        rw [h0] at hJ2'
        have := le_max_right c.maxSize
          ((estimateEntrySize key ⟨value, now, orDefault ttl c.defaultTtl⟩ : Nat) : Int)
        linarith

theorem setReach_inv (options : CacheOptions) (c : MemoryCache) (h : SetReach options c) :
    NodupKeys c.cache ∧ c.currentMemoryUsage ≤ sumSizes c.cache := by
  induction h with
  | init =>
    constructor
    · show (([] : List (String × CacheEntry)).map Prod.fst).Nodup
      simp
    · show (0 : Int) ≤ sumSizes []
      rw [sumSizes_nil]
  | step hr hs ih =>
    obtain ⟨hn, hInv⟩ := ih
    have hspec := set_spec _ _ _ _ _ _ _ hn hs
    exact ⟨hspec.1, (hspec.2.2.2.2 hInv).1⟩

/-! ### Helper lemmas for divergence and round trips -/

theorem evictLoop_none_of_fixpoint (now esz : Int) (c : MemoryCache)
    (hguard : c.currentMemoryUsage + esz > c.maxSize ∧ 0 < c.cache.length)
    (hfix : evictLeastRecentlyUsed now c = c) :
    ∀ fuel, evictLoop now esz fuel c = none := by
  intro fuel
  induction fuel with
  | zero => rw [evictLoop, if_pos hguard]
  | succ fuel ih =>
    rw [evictLoop, if_pos hguard, hfix]
    exact ih

theorem set_none_of_stuck (c : MemoryCache) (key : String) (value : JGraph)
    (ttl : Option Int) (now : Int)
    (hget : mapGet key c.cache = none)
    (hguard : c.currentMemoryUsage +
        ((estimateEntrySize key ⟨value, now, orDefault ttl c.defaultTtl⟩ : Nat) : Int) >
        c.maxSize ∧ 0 < c.cache.length)
    (hfix : evictLeastRecentlyUsed now c = c) :
    ∀ fuel, MemoryCache.set c key value ttl now fuel = none := by
  intro fuel
  simp only [MemoryCache.set, hget]
  rw [evictLoop_none_of_fixpoint now _ c hguard hfix fuel]

theorem set_on_empty (c : MemoryCache) (key : String) (v : JGraph) (ttl : Option Int)
    (now : Int) (hempty : c.cache = []) :
    MemoryCache.set c key v ttl now 0 =
      some { c with
              cache := [(key, ⟨v, now, orDefault ttl c.defaultTtl⟩)]
              currentMemoryUsage := c.currentMemoryUsage +
                ((estimateEntrySize key ⟨v, now, orDefault ttl c.defaultTtl⟩ : Nat) : Int) } := by
  have hmg : mapGet key c.cache = none := by
    rw [hempty]
    rfl
  have hnot : ¬(c.currentMemoryUsage +
      ((estimateEntrySize key ⟨v, now, orDefault ttl c.defaultTtl⟩ : Nat) : Int) >
      c.maxSize ∧ 0 < c.cache.length) := by
    rw [hempty]
    intro h
    simp at h
  have hev : evictLoop now
      ((estimateEntrySize key ⟨v, now, orDefault ttl c.defaultTtl⟩ : Nat) : Int) 0 c = some c := by
    rw [evictLoop, if_neg hnot]
  simp only [MemoryCache.set, hmg]
  rw [hev]
  simp only [hempty, mapSet]

theorem get_after_set (c c' : MemoryCache) (key : String) (value : JGraph)
    (ttl : Option Int) (now now2 : Int) (fuel : Nat)
    (hs : MemoryCache.set c key value ttl now fuel = some c')
    (hfresh : now2 - now ≤ orDefault ttl c.defaultTtl) :
    (MemoryCache.get c' key now2).1 = some value := by
  obtain ⟨c2, _, hc'⟩ := set_eq c key value ttl now fuel c' hs
  subst hc'
  have hmg : mapGet key
      (mapSet key (⟨value, now, orDefault ttl c.defaultTtl⟩ : CacheEntry) c2.cache) =
      some ⟨value, now, orDefault ttl c.defaultTtl⟩ := mapGet_mapSet_self _ _ _
  simp only [MemoryCache.get, hmg]
  rw [if_neg (not_lt.mpr hfresh)]

/-! ### Concrete example values -/

/-- A single string value, as the callers of the cache typically store
serialized package metadata. -/
def strGraph (s : String) : JGraph := ⟨[JNode.jstr s], 0⟩

/-- A 15-character string; entry size under key "a" is 60 bytes. -/
def gStr15 : JGraph := strGraph "aaaaabbbbbccccc"

/-- A 20-character string; entry size under key "b" is 70 bytes. -/
def gStr20 : JGraph := strGraph "aaaaabbbbbcccccddddd"

/-- A 45-character string; entry size under key "a" is 120 bytes. -/
def gStr45 : JGraph := strGraph "aaaaabbbbbcccccaaaaabbbbbcccccaaaaabbbbbccccc"

/-- A self-referential object: node 0 is an object whose field "a"
holds the number 1 and whose field "self" refers back to node 0. -/
def gCirc : JGraph := ⟨[JNode.jobj [("a", 1), ("self", 0)], JNode.jnum 1], 0⟩

/-- The store obtained by `set "k" (strGraph "xy")` at time 0 on a
freshly constructed default cache (entry size 34 bytes). -/
def cW : MemoryCache :=
  ⟨[("k", ⟨strGraph "xy", 0, 3600000⟩)], 3600000, 104857600, 34, 0, 0, true⟩

/-- The store obtained by `set "a" (strGraph "xy")` at time 0 on a
cache constructed with maxSize 100 (entry size 34 bytes). -/
def cA : MemoryCache :=
  ⟨[("a", ⟨strGraph "xy", 0, 3600000⟩)], 3600000, 100, 34, 0, 0, true⟩

/-- The store obtained by `set "a" gStr15` at time 0 on a cache
constructed with maxSize 100 (entry size 60 bytes). -/
def cA60 : MemoryCache :=
  ⟨[("a", ⟨gStr15, 0, 3600000⟩)], 3600000, 100, 60, 0, 0, true⟩

/-- The store after the self-evicting `set "a" gStr45` at time 5 on
`cA60`: the map holds the 120-byte entry but `currentMemoryUsage` is
60 because the old entry's size was subtracted twice. -/
def cSelfFinal : MemoryCache :=
  ⟨[("a", ⟨gStr45, 5, 3600000⟩)], 3600000, 100, 60, 0, 0, true⟩

/-- The store obtained by `set "a" gStr15` at time 5 on a cache
constructed with maxSize 100: one 60-byte entry stored in the current
tick. -/
def cP : MemoryCache :=
  ⟨[("a", ⟨gStr15, 5, 3600000⟩)], 3600000, 100, 60, 0, 0, true⟩

/-- The store obtained by `set "k" gCirc` at time 0 on a freshly
constructed default cache (the circular value estimates to 94 bytes via
the recursive fallback). -/
def cCirc : MemoryCache :=
  ⟨[("k", ⟨gCirc, 0, 3600000⟩)], 3600000, 104857600, 94, 0, 0, true⟩

/-- Entry stored at time 0 (for the eviction-order witness). -/
def entT0 : CacheEntry := ⟨strGraph "xy", 0, 3600000⟩

/-- Entry stored at time 5 (for the eviction-order witness). -/
def entT5 : CacheEntry := ⟨strGraph "xy", 5, 3600000⟩

/-- A two-entry map: "a" stored at time 0, "b" stored at time 5. -/
def lAB : List (String × CacheEntry) := [("a", entT0), ("b", entT5)]

/-! ### Claim theorems -/

/-- Claim C2 (code bug): the claim says `currentMemoryUsage` always
equals the sum of the estimated sizes of the entries in the map, over
all public operations including `destroy`.  The code violates it:
after `set "k" (strGraph "xy")` (34 bytes) followed by `destroy()`, the
map is empty but `currentMemoryUsage` is still 34 — `destroy` clears
the map without resetting the usage counter (unlike `clear`). -/
theorem claim2_destroy_leaks_usage :
    (MemoryCache.set (mkCache ⟨none, none⟩) "k" (strGraph "xy") none 0 0).map
        (fun c1 => ((MemoryCache.destroy c1).cache,
          (MemoryCache.destroy c1).currentMemoryUsage)) =
      some ([], 34) ∧
    sumSizes ([] : List (String × CacheEntry)) = 0 ∧ (34 : Int) ≠ 0 := by
  refine ⟨?_, rfl, by decide⟩
  rfl

/-- Claim C3 (code bug): the claim says every `set` call terminates,
even when all remaining entries share the current tick's `storedAt`.
The code violates it: with maxSize 100, after storing "a" (34 bytes) at
time 0, a `set "b"` of a 70-byte entry in the same tick needs to evict,
but the eviction scan starts at `oldestTimestamp = Date.now()` with a
strict comparison, finds no victim among entries stored at the current
tick, and the `while` loop never terminates — modelled as `none` for
every fuel. -/
theorem claim3_set_diverges_same_tick :
    ∀ fuel : Nat,
      (MemoryCache.set (mkCache ⟨none, some 100⟩) "a" (strGraph "xy") none 0 0).bind
        (fun c1 => MemoryCache.set c1 "b" gStr20 none 0 fuel) = none := by
  intro fuel
  have h1 : MemoryCache.set (mkCache ⟨none, some 100⟩) "a" (strGraph "xy") none 0 0 =
      some cA := by rfl
  rw [h1]
  show MemoryCache.set cA "b" gStr20 none 0 fuel = none
  exact set_none_of_stuck cA "b" gStr20 none 0 rfl (by decide) (by decide) fuel

/-- Claim C4 counterexample: the claim says that at the exact instant
`now = storedAt + ttl` the entry is no longer returned as a hit.  The
code disagrees: `set` with ttl 100 at time 0 followed by `get` at time
100 is still a hit (the expiry test is `now - timestamp > ttl`,
strict). -/
theorem claim4_counterexample :
    (MemoryCache.set (mkCache ⟨none, none⟩) "k" (strGraph "xy") (some 100) 0 0).map
        (fun c1 => (MemoryCache.get c1 "k" 100).1) = some (some (strGraph "xy")) := by
  rfl

/-- Claim C4 (amended): for a stored entry, `get` returns the stored
value while `now - storedAt ≤ ttl` — including the exact instant
`now = storedAt + ttl` — and returns the not-found result once
`now - storedAt > ttl`, deleting the entry and subtracting its size
from `usedBytes`. -/
theorem claim4_ttl_boundary (c : MemoryCache) (key : String) (now : Int) (e : CacheEntry)
    (hg : mapGet key c.cache = some e) :
    (now - e.timestamp ≤ e.ttl → (MemoryCache.get c key now).1 = some e.data) ∧
    (e.ttl < now - e.timestamp →
      (MemoryCache.get c key now).1 = none ∧
      (MemoryCache.get c key now).2.cache = mapDelete key c.cache ∧
      (MemoryCache.get c key now).2.currentMemoryUsage =
        c.currentMemoryUsage - (estimateEntrySize key e : Int)) := by
  constructor
  · intro hle
    simp only [MemoryCache.get, hg]
    rw [if_neg (not_lt.mpr hle)]
  · intro hlt
    simp only [MemoryCache.get, hg]
    rw [if_pos hlt]
    exact ⟨rfl, rfl, rfl⟩

/-- Witness for claim C4's amended theorem: on the concrete store `cW`
(entry stored at time 0 with ttl 3600000), `get` at exactly time
3600000 is a hit and `get` at time 3600001 is a miss. -/
theorem claim4_ttl_boundary_witness :
    (MemoryCache.get cW "k" 3600000).1 = some (strGraph "xy") ∧
    (MemoryCache.get cW "k" 3600001).1 = none :=
  ⟨(claim4_ttl_boundary cW "k" 3600000 ⟨strGraph "xy", 0, 3600000⟩ rfl).1 (by decide),
   ((claim4_ttl_boundary cW "k" 3600001 ⟨strGraph "xy", 0, 3600000⟩ rfl).2 (by decide)).1⟩

/-- Claim C7 counterexample: the claim says an invalid configuration
such as a non-positive maxSize is rejected at construction with an
error.  The code disagrees: the constructor performs no validation, so
`new MemoryCache({maxSize: -1})` yields a store whose effective budget
is -1, and a subsequent `set` on it succeeds. -/
theorem claim7_counterexample :
    (mkCache ⟨none, some (-1)⟩).maxSize = -1 ∧
    (MemoryCache.set (mkCache ⟨none, some (-1)⟩) "k" (strGraph "xy") none 0 0).isSome = true := by
  constructor
  · rfl
  · rfl

/-- Claim C7 (amended): construction never rejects a configuration; a
zero maxSize is silently replaced by the 100 MB default via falsy
coalescing, while any non-zero (including negative) maxSize is kept as
the effective budget, and the store still operates (a `set` on it
succeeds). -/
theorem claim7_no_validation (m : Int) (hm : m ≠ 0) :
    (mkCache ⟨none, some m⟩).maxSize = m ∧
    (mkCache ⟨none, some 0⟩).maxSize = 104857600 ∧
    (MemoryCache.set (mkCache ⟨none, some m⟩) "k" (strGraph "xy") none 0 0).isSome = true := by
  refine ⟨?_, rfl, ?_⟩
  · show orDefault (some m) 104857600 = m
    simp [orDefault, hm]
  · rw [set_on_empty _ _ _ _ _ rfl]
    rfl

/-- Witness for claim C7's amended theorem at maxSize -5. -/
theorem claim7_no_validation_witness :
    (mkCache ⟨none, some (-5)⟩).maxSize = -5 ∧
    (mkCache ⟨none, some 0⟩).maxSize = 104857600 ∧
    (MemoryCache.set (mkCache ⟨none, some (-5)⟩) "k" (strGraph "xy") none 0 0).isSome = true :=
  claim7_no_validation (-5) (by decide)

/-- Claim C1 counterexample: the claim says that when the newly
inserted entry's estimated size exceeds maxSize, `usedBytes` equals
exactly that entry's size.  The code disagrees on a set-only run:
with maxSize 100, `set "a"` (60 bytes) at time 0 and then `set "a"`
with a 120-byte value at time 5 evicts the old "a" entry inside the
loop after already subtracting its size, so the final usage is 60,
not 120, even though 120 > 100. -/
theorem claim1_counterexample :
    (MemoryCache.set (mkCache ⟨none, some 100⟩) "a" gStr15 none 0 0).bind
        (fun c1 => MemoryCache.set c1 "a" gStr45 none 5 2) = some cSelfFinal ∧
    cSelfFinal.maxSize <
      ((estimateEntrySize "a" ⟨gStr45, 5, 3600000⟩ : Nat) : Int) ∧
    cSelfFinal.currentMemoryUsage ≠
      ((estimateEntrySize "a" ⟨gStr45, 5, 3600000⟩ : Nat) : Int) := by
  refine ⟨?_, by decide, by decide⟩
  rfl

/-- Claim C1 (amended): for every store reachable from a fresh
construction by terminating `set` calls, after each further `set` call
that returns, `usedBytes ≤ maxSize` whenever the inserted entry's
estimated size is at most maxSize; when that size exceeds maxSize,
`usedBytes` is at most (not necessarily exactly) that one entry's
size.  Both cases are expressed as the bound
`usedBytes ≤ max maxSize entrySize`. -/
theorem claim1_budget_bound (options : CacheOptions) (c c' : MemoryCache) (key : String)
    (value : JGraph) (ttl : Option Int) (now : Int) (fuel : Nat)
    (hreach : SetReach options c)
    (hs : MemoryCache.set c key value ttl now fuel = some c') :
    c'.currentMemoryUsage ≤
      max c.maxSize
        ((estimateEntrySize key ⟨value, now, orDefault ttl c.defaultTtl⟩ : Nat) : Int) := by
  obtain ⟨hn, hInv⟩ := setReach_inv options c hreach
  exact ((set_spec c key value ttl now fuel c' hn hs).2.2.2.2 hInv).2

/-- Witness for claim C1's amended theorem: one concrete `set` on a
fresh default store lands within the bound. -/
theorem claim1_budget_bound_witness :
    cW.currentMemoryUsage ≤
      max (mkCache ⟨none, none⟩).maxSize
        ((estimateEntrySize "k"
          ⟨strGraph "xy", 0, orDefault none (mkCache ⟨none, none⟩).defaultTtl⟩ : Nat) : Int) :=
  claim1_budget_bound ⟨none, none⟩ (mkCache ⟨none, none⟩) cW "k" (strGraph "xy") none 0 0
    SetReach.init (by rfl)

/-- Claim C5 counterexample: the claim says each eviction step removes
the entry with the globally smallest `storedAt`.  The code disagrees
when the smallest `storedAt` equals the current time: on the store
`cP` (one 60-byte entry stored at time 5), a `set "b"` of a 70-byte
entry at time 5 is under memory pressure, yet the eviction step
removes nothing — the scan starts at `Date.now()` with a strict
comparison. -/
theorem claim5_counterexample :
    MemoryCache.set (mkCache ⟨none, some 100⟩) "a" gStr15 none 5 0 = some cP ∧
    cP.maxSize <
      cP.currentMemoryUsage + ((estimateEntrySize "b" ⟨gStr20, 5, 3600000⟩ : Nat) : Int) ∧
    0 < cP.cache.length ∧
    evictLeastRecentlyUsed 5 cP = cP := by
  refine ⟨?_, by decide, by decide, by decide⟩
  rfl

/-- Claim C5 (amended): whenever the eviction step does choose a
victim, that victim's `storedAt` is globally minimal among the entries
present; consequently, for entries A (older `storedAt`) and B (newer),
B is never the victim while A is present, so A is removed before B.
(When the minimal `storedAt` is not strictly earlier than the current
time, the step removes nothing at all.) -/
theorem claim5_eviction_order (now : Int) (l : List (String × CacheEntry))
    (kA kB : String) (eA eB : CacheEntry) (hn : NodupKeys l)
    (hA : (kA, eA) ∈ l) (hB : (kB, eB) ∈ l) (hlt : eA.timestamp < eB.timestamp) :
    evictVictim now l ≠ some kB ∧
    (∀ k e, evictVictim now l = some k → (k, e) ∈ l →
      ∀ p ∈ l, e.timestamp ≤ p.2.timestamp) := by
  constructor
  · intro hv
    obtain ⟨e, hmem, hmin⟩ := evictVictim_min now l kB hv
    have heB : e = eB := by
      have h1 := mapGet_of_mem_nodup kB e l hn hmem
      have h2 := mapGet_of_mem_nodup kB eB l hn hB
      exact Option.some.inj (h1 ▸ h2)
    have hle := hmin (kA, eA) hA
    rw [heB] at hle
    exact absurd hle (not_le.mpr hlt)
  · intro k e hv hke p hp
    obtain ⟨e2, hmem, hmin⟩ := evictVictim_min now l k hv
    have he : e2 = e := by
      have h1 := mapGet_of_mem_nodup k e2 l hn hmem
      have h2 := mapGet_of_mem_nodup k e l hn hke
      exact Option.some.inj (h1 ▸ h2)
    exact he ▸ hmin p hp

/-- Witness for claim C5's amended theorem: on the two-entry map
`lAB` ("a" stored at 0, "b" at 5), a scan at time 10 never picks "b",
and any victim has the minimal timestamp. -/
theorem claim5_eviction_order_witness :
    evictVictim 10 lAB ≠ some "b" ∧
    (∀ k e, evictVictim 10 lAB = some k → (k, e) ∈ lAB →
      ∀ p ∈ lAB, e.timestamp ≤ p.2.timestamp) :=
  claim5_eviction_order 10 lAB "a" "b" entT0 entT5
    (by show (lAB.map Prod.fst).Nodup; decide) (by decide) (by decide) (by decide)

/-- Claim C6 (code bug): the claim says a `set(key, ...)` call never
evicts the entry for `key` itself, and that on return `usedBytes`
counts the new entry's size exactly once.  The code violates it: the
source's comment says "Remove existing entry if updating", but the
code only subtracts the old size and leaves the entry in the map, so
the eviction loop inside `set "a" gStr45` at time 5 on `cA60` picks
"a" itself as the victim and subtracts its 60 bytes a second time;
the call returns with the 120-byte entry in the map but
`currentMemoryUsage = 60`. -/
theorem claim6_set_evicts_own_key :
    MemoryCache.set (mkCache ⟨none, some 100⟩) "a" gStr15 none 0 0 = some cA60 ∧
    evictVictim 5 cA60.cache = some "a" ∧
    MemoryCache.set cA60 "a" gStr45 none 5 2 = some cSelfFinal ∧
    estimateEntrySize "a" ⟨gStr45, 5, 3600000⟩ = 120 ∧
    cSelfFinal.cache = [("a", ⟨gStr45, 5, 3600000⟩)] ∧
    cSelfFinal.currentMemoryUsage = 60 := by
  refine ⟨?_, rfl, ?_, rfl, rfl, rfl⟩
  · rfl
  · rfl

/-- Claim C8 (confirmed): `set(key, v)` with a self-referential value
does not throw — the serialization failure is recovered by the
recursive visited-set estimator, which terminates (returns a result)
on every finite value graph, cyclic or not, for any recursion depth
beyond the node count — and a subsequent unexpired `get(key)` returns
exactly the stored value, so its top-level fields are intact. -/
theorem claim8_circular_safe (c c' : MemoryCache) (key : String) (g : JGraph)
    (ttl : Option Int) (now now2 : Int) (fuel : Nat)
    (hset : MemoryCache.set c key g ttl now fuel = some c')
    (hfresh : now2 - now ≤ orDefault ttl c.defaultTtl) :
    (∀ f : Nat, g.nodes.length < f →
      (estimateSizeRecursively g.nodes f g.root []).isSome) ∧
    (MemoryCache.get c' key now2).1 = some g := by
  constructor
  · intro f hf
    apply estimateSizeRecursively_isSome g.nodes f [] g.root List.nodup_nil
    · intro i hi
      exact absurd hi (List.not_mem_nil i)
    · simpa using hf
  · exact get_after_set c c' key g ttl now now2 fuel hset hfresh

/-- Witness for claim C8: storing the concrete circular value `gCirc`
on a fresh default cache.  `JSON.stringify` fails on it (`none`), the
recursive estimator returns 34, and an unexpired `get` at time 100
returns the stored graph. -/
theorem claim8_circular_safe_witness :
    stringifyRec gCirc.nodes 3 gCirc.root [] = none ∧
    estimateSizeRecursively gCirc.nodes 3 gCirc.root [] = some 34 ∧
    ((∀ f : Nat, gCirc.nodes.length < f →
        (estimateSizeRecursively gCirc.nodes f gCirc.root []).isSome) ∧
      (MemoryCache.get cCirc "k" 100).1 = some gCirc) :=
  ⟨rfl, rfl,
    claim8_circular_safe (mkCache ⟨none, none⟩) cCirc "k" gCirc none 0 100 0 rfl (by decide)⟩

/-- Claim C9 (confirmed): `destroy()` is idempotent on the state (so a
second call cannot raise), `get` after `destroy` behaves like a call
on an empty store (not found), and a subsequent `set` succeeds and is
retrievable by an unexpired `get` — the store is not left terminally
unusable. -/
theorem claim9_destroy_idempotent (c : MemoryCache) (key k2 : String) (v : JGraph)
    (ttl : Option Int) (tQuery now2 now3 : Int)
    (hfresh : now3 - now2 ≤ orDefault ttl c.defaultTtl) :
    MemoryCache.destroy (MemoryCache.destroy c) = MemoryCache.destroy c ∧
    (MemoryCache.get (MemoryCache.destroy c) k2 tQuery).1 = none ∧
    ∃ c2, MemoryCache.set (MemoryCache.destroy c) key v ttl now2 0 = some c2 ∧
      (MemoryCache.get c2 key now3).1 = some v := by
  refine ⟨rfl, ?_, ?_⟩
  · simp [MemoryCache.get, MemoryCache.destroy, mapGet]
  · have hset := set_on_empty (MemoryCache.destroy c) key v ttl now2 rfl
    exact ⟨_, hset, get_after_set _ _ _ _ _ _ _ _ hset hfresh⟩

/-- Witness for claim C9 on the concrete non-empty store `cW`. -/
theorem claim9_destroy_idempotent_witness :
    MemoryCache.destroy (MemoryCache.destroy cW) = MemoryCache.destroy cW ∧
    (MemoryCache.get (MemoryCache.destroy cW) "k" 50).1 = none ∧
    ∃ c2, MemoryCache.set (MemoryCache.destroy cW) "k" (strGraph "xy") none 60 0 = some c2 ∧
      (MemoryCache.get c2 "k" 70).1 = some (strGraph "xy") :=
  claim9_destroy_idempotent cW "k" "k" (strGraph "xy") none 50 60 70 (by decide)

/-- Claim C10 (confirmed): a zero `ttl` (constructor option or `set`
argument) and a zero `maxSize` are treated exactly like absent options
and silently replaced by the defaults (one hour, 100 MB) through falsy
coalescing; consequently the default TTL of any constructed store is
never zero, and the TTL attached to a stored entry (computed by
`orDefault`) is never zero when the store's default is non-zero — no
entry gets a zero-millisecond lifetime, and a zero budget is never
rejected but silently widened. -/
theorem claim10_zero_coalesced (t m targ : Option Int) (c : MemoryCache)
    (key : String) (v : JGraph) (now : Int) (fuel : Nat) (hd : c.defaultTtl ≠ 0) :
    mkCache ⟨some 0, m⟩ = mkCache ⟨none, m⟩ ∧
    mkCache ⟨t, some 0⟩ = mkCache ⟨t, none⟩ ∧
    (mkCache ⟨none, none⟩).defaultTtl = 3600000 ∧
    (mkCache ⟨none, none⟩).maxSize = 104857600 ∧
    MemoryCache.set c key v (some 0) now fuel = MemoryCache.set c key v none now fuel ∧
    (mkCache ⟨t, m⟩).defaultTtl ≠ 0 ∧
    orDefault targ c.defaultTtl ≠ 0 := by
  refine ⟨?_, ?_, rfl, rfl, ?_, ?_, ?_⟩
  · simp [mkCache, orDefault]
  · simp [mkCache, orDefault]
  · simp [MemoryCache.set, orDefault]
  · cases t with
    | none =>
      show orDefault none 3600000 ≠ 0
      decide
    | some x =>
      show (if x = 0 then (3600000 : Int) else x) ≠ 0
      by_cases hx : x = 0
      · rw [if_pos hx]
        decide
      · rw [if_neg hx]
        exact hx
  · cases targ with
    | none => exact hd
    | some x =>
      show (if x = 0 then c.defaultTtl else x) ≠ 0
      by_cases hx : x = 0
      · rw [if_pos hx]
        exact hd
      · rw [if_neg hx]
        exact hx

/-- Witness for claim C10 at concrete options and the concrete store
`cW`. -/
theorem claim10_zero_coalesced_witness :
    mkCache ⟨some 0, some 0⟩ = mkCache ⟨none, some 0⟩ ∧
    mkCache ⟨some 0, some 0⟩ = mkCache ⟨some 0, none⟩ ∧
    (mkCache ⟨none, none⟩).defaultTtl = 3600000 ∧
    (mkCache ⟨none, none⟩).maxSize = 104857600 ∧
    MemoryCache.set cW "k" (strGraph "xy") (some 0) 0 0 =
      MemoryCache.set cW "k" (strGraph "xy") none 0 0 ∧
    (mkCache ⟨some 0, some 0⟩).defaultTtl ≠ 0 ∧
    orDefault (some 0) cW.defaultTtl ≠ 0 :=
  claim10_zero_coalesced (some 0) (some 0) (some 0) cW "k" (strGraph "xy") 0 0 (by decide)
